import Mathlib

/-!
Verification of the kit repository: the `errors` package (HTTP/gRPC error
values) and the time-ordered, uniquely-keyed priority queue specified in
`spec.md` and exercised by the queue tests.

Part 1 embeds the `errors` package from `src/errors/errors.go`.
Part 2 embeds the priority queue. Its implementation file is not under
`src/` (only its test file is), so the queue operations are modelled from
the specification's §4.1 operation descriptions, and checked against the
behaviour the tests demand.
-/

namespace KitErrors

/-- A gRPC status code, as in google.golang.org/grpc/codes (a uint32 enum);
modelled as a natural number. -/
abbrev Code := Nat

/-- Name of a gRPC status code, as returned by `grpcCodes.Code.String()`
in the external grpc codes package. -/
def codeString (c : Code) : String :=
  match c with
  | 0 => "OK"
  | 1 => "Canceled"
  | 2 => "Unknown"
  | 3 => "InvalidArgument"
  | 4 => "DeadlineExceeded"
  | 5 => "NotFound"
  | 6 => "AlreadyExists"
  | 7 => "PermissionDenied"
  | 8 => "ResourceExhausted"
  | 9 => "FailedPrecondition"
  | 10 => "Aborted"
  | 11 => "OutOfRange"
  | 12 => "Unimplemented"
  | 13 => "Internal"
  | 14 => "Unavailable"
  | 15 => "DataLoss"
  | 16 => "Unauthenticated"
  | n => "Code(" ++ toString n ++ ")"

/-- An error detail payload (`proto.Message` values from the
`errdetails` package). The `JSONErrorValue` logic only distinguishes the
`ErrorInfo` case from all the others, which are rendered verbatim. -/
inductive Detail where
  | errorInfo (domain : String) (reason : String) (metadata : List (String × String))
  | resourceInfo (resourceType resourceName owner description : String)
  | retryInfo (retryDelaySeconds : Nat)
  | otherDetail (typeName : String)
deriving DecidableEq, Repr

/-- The `Error` struct of `src/errors/errors.go` (lines 35-51): details,
gRPC code, HTTP code, human-readable message, and HTTP tag. -/
structure Error where
  details : List Detail
  grpcCode : Code
  httpCode : Nat
  message : String
  tag : String
deriving DecidableEq, Repr

/-- The `New` constructor of `src/errors/errors.go` (lines 54-65): empty
details and the supplied metadata. -/
def New (grpcCode : Code) (httpCode : Nat) (message : String) (tag : String) : Error :=
  { details := [], grpcCode := grpcCode, httpCode := httpCode,
    message := message, tag := tag }

/-- Modelled from the spec: the `errStringFormat` constant is not under
`src/` (only its use at `src/errors/errors.go` line 77 is); it is a
`fmt.Sprintf` format interpolating the gRPC code's name and the message,
modelled here as string concatenation around the two interpolated values. -/
def sprintfErrString (codeName msg : String) : String :=
  "api error: code = " ++ codeName ++ " desc = " ++ msg

/-- The `String` method of `src/errors/errors.go` (lines 76-78):
formats the gRPC code's name together with the message. -/
def Error.string (e : Error) : String :=
  sprintfErrString (codeString e.grpcCode) e.message

/-- The `Error` method of `src/errors/errors.go` (lines 68-73). The Go
receiver is a pointer `*Error`, modelled as `Option Error` (`none` is the
nil pointer); the method guards on `e != nil` and returns `""` on nil. -/
def errorMethod (e : Option Error) : String :=
  match e with
  | some err => err.string
  | none => ""

/-- A Go `error` value, as an unwrap chain: either a `*Error` from this
package, some other concrete error, or a wrapping error whose `Unwrap`
yields the inner error. -/
inductive GoError where
  | kitError (e : Error)
  | plain (msg : String)
  | wrap (msg : String) (inner : GoError)
deriving DecidableEq, Repr

/-- The behaviour of `errors.As(targetI, &target)` for `target *Error`:
walk the unwrap chain and return the first `*Error` found, if any. -/
def errorsAs : GoError → Option Error
  | .kitError e => some e
  | .plain _ => none
  | .wrap _ inner => errorsAs inner

/-- The `Is` method of `src/errors/errors.go` (lines 311-320): convert the
target via `errors.As`; on failure return false, otherwise compare the
`Tag`, `GrpcCode` and `HttpCode` fields only. -/
def Error.goIs (e : Error) (targetI : GoError) : Bool :=
  match errorsAs targetI with
  | none => false
  | some target =>
      e.tag == target.tag && e.grpcCode == target.grpcCode && e.httpCode == target.httpCode

/-- The subset of `net/http`'s `StatusText` table relevant to this
package's callers; unknown codes map to the empty string, as in Go. -/
def statusText (code : Nat) : String :=
  match code with
  | 200 => "OK"
  | 204 => "No Content"
  | 400 => "Bad Request"
  | 401 => "Unauthorized"
  | 403 => "Forbidden"
  | 404 => "Not Found"
  | 409 => "Conflict"
  | 429 => "Too Many Requests"
  | 500 => "Internal Server Error"
  | 501 => "Not Implemented"
  | 503 => "Service Unavailable"
  | _ => ""

/-- The `ErrorJSON` struct of `src/errors/errors.go` (lines 141-145), with
details kept as the structured detail list rather than rendered maps. -/
structure ErrorJSON where
  errorCode : String
  message : String
  details : List Detail
deriving DecidableEq, Repr

/-- One iteration of the detail loop of `JSONErrorValue`
(`src/errors/errors.go` lines 169-299), restricted to its effect on the
error code: an `ErrorInfo` detail with a non-empty `Reason` overwrites the
error code when the legacy `Tag` is empty; every other detail leaves it
unchanged. -/
def jsonCodeStep (tag : String) (acc : ErrorJSON) (d : Detail) : ErrorJSON :=
  match d with
  | .errorInfo _ reason _ =>
      if tag = "" ∧ reason ≠ "" then { acc with errorCode := reason } else acc
  | _ => acc

/-- The `JSONErrorValue` method of `src/errors/errors.go` (lines 148-308),
up to JSON serialization: start from the `Tag` (or, when the tag is empty,
`http.StatusText` of the HTTP code) as the error code and the message, then
walk the details in order applying `jsonCodeStep`. -/
def Error.jsonErrorValue (e : Error) : ErrorJSON :=
  let httpStatus := if e.tag ≠ "" then e.tag else statusText e.httpCode
  e.details.foldl (jsonCodeStep e.tag)
    { errorCode := httpStatus, message := e.message, details := e.details }

/-- One step of the specification-level description of which reason wins:
keep the reason of the most recent `ErrorInfo` detail whose reason is
non-empty. -/
def reasonStep (acc : Option String) (d : Detail) : Option String :=
  match d with
  | .errorInfo _ reason _ => if reason ≠ "" then some reason else acc
  | _ => acc

/-- The `Reason` of the last `ErrorInfo` detail with a non-empty reason,
if any: the specification-level description of which reason wins. -/
def lastNonEmptyReason (ds : List Detail) : Option String :=
  ds.foldl reasonStep none

end KitErrors

namespace KitQueue

/-- A schedulable item: a unique identity `key` and a `time` (the
`ScheduledTime` ordering key, modelled as a natural number of
nanoseconds/ticks; the queue compares times only). Payload fields are
opaque to the queue and omitted. -/
structure QItem where
  key : String
  time : Nat
deriving DecidableEq, Repr

/-- Modelled from the spec: the queue implementation file is not under
`src/` (only its test file is). State per §4.1: a 0-indexed contiguous
sequence of items forming a binary min-heap by scheduled time, and a
mapping from key to the item's current index in that sequence. -/
structure Queue where
  heap : List QItem
  items : String → Option Nat

/-- The empty queue produced by construction (`newQueue`). -/
def Queue.empty : Queue := ⟨[], fun _ => none⟩

/-- Record `k ↦ v` in the key-to-position map. -/
def mapSet (m : String → Option Nat) (k : String) (v : Nat) : String → Option Nat :=
  fun q => if q = k then some v else m q

/-- Delete `k` from the key-to-position map. -/
def mapErase (m : String → Option Nat) (k : String) : String → Option Nat :=
  fun q => if q = k then none else m q

/-- Scheduled time of the item at position `i` (0 when out of range; all
uses are at in-range positions). -/
def tAt (l : List QItem) (i : Nat) : Nat :=
  match l[i]? with
  | some a => a.time
  | none => 0

/-- Modelled from the spec: the single internal "move" primitive of §9 —
swap the elements at positions `i` and `j` and update the index entries of
both moved elements. Out-of-range positions leave the state unchanged
(never exercised by the operations). -/
def Queue.swap (s : Queue) (i j : Nat) : Queue :=
  match s.heap[i]?, s.heap[j]? with
  | some a, some b =>
      ⟨(s.heap.set i b).set j a, mapSet (mapSet s.items a.key j) b.key i⟩
  | _, _ => s

theorem Queue.swap_heap_length (s : Queue) (i j : Nat) :
    (s.swap i j).heap.length = s.heap.length := by
  unfold Queue.swap
  cases hi : s.heap[i]? <;> cases hj : s.heap[j]? <;> simp

/-- Modelled from the spec: sift-up of §4.1 — while `i > 0` and the time
at `i` is earlier than at its parent `(i-1)/2`, swap with the parent
(updating both index entries) and continue from the parent. -/
def Queue.siftUp (s : Queue) (i : Nat) : Queue :=
  if h : i = 0 then s
  else
    match s.heap[i]?, s.heap[(i - 1) / 2]? with
    | some a, some b =>
        if a.time < b.time then (s.swap i ((i - 1) / 2)).siftUp ((i - 1) / 2) else s
    | _, _ => s
termination_by i
decreasing_by omega

/-- Index of the smaller existing child of `i` (the left child `2i+1` when
the right child `2i+2` is absent or not earlier). Only meaningful when the
left child exists. -/
def Queue.smallerChild (s : Queue) (i : Nat) : Nat :=
  if 2 * i + 2 < s.heap.length ∧ tAt s.heap (2 * i + 2) < tAt s.heap (2 * i + 1) then
    2 * i + 2
  else 2 * i + 1

theorem Queue.smallerChild_gt (s : Queue) (i : Nat) : i < s.smallerChild i := by
  unfold Queue.smallerChild; split <;> omega

/-- Modelled from the spec: sift-down of §4.1 — repeatedly find the
smaller existing child; if its time is earlier than the time at `i`, swap
(updating both index entries) and continue from that child's position. -/
def Queue.siftDown (s : Queue) (i : Nat) : Queue :=
  if hl : 2 * i + 1 < s.heap.length then
    if tAt s.heap (s.smallerChild i) < tAt s.heap i then
      (s.swap i (s.smallerChild i)).siftDown (s.smallerChild i)
    else s
  else s
termination_by s.heap.length - i
decreasing_by
  have h1 : i < s.smallerChild i := s.smallerChild_gt i
  have h2 : s.smallerChild i < s.heap.length := by
    unfold Queue.smallerChild; split <;> omega
  simp only [Queue.swap_heap_length]; omega

/-- Modelled from the spec: the local re-heapify shared by the replace
branch of `Insert`, by `Update` and by `Remove`/`Pop` — sift up if the
time at `p` is earlier than its parent's, otherwise sift down. -/
def Queue.fixAt (s : Queue) (p : Nat) : Queue :=
  if 0 < p ∧ tAt s.heap p < tAt s.heap ((p - 1) / 2) then s.siftUp p else s.siftDown p

/-- Modelled from the spec: the new-key branch of `Insert` — append the
item at the end of the sequence, record its index in the map, then sift it
up toward the root. -/
def Queue.pushItem (s : Queue) (it : QItem) : Queue :=
  Queue.siftUp ⟨s.heap ++ [it], mapSet s.items it.key s.heap.length⟩ s.heap.length

/-- Modelled from the spec: `Insert(item, replaceIfExists)` of §4.1 — if
the key is absent, append and sift up; if present with
`replaceIfExists = false`, a no-op; if present with `replaceIfExists =
true`, overwrite the entry at its current position and re-heapify locally. -/
def Queue.Insert (s : Queue) (it : QItem) (replaceIfExists : Bool) : Queue :=
  match s.items it.key with
  | none => s.pushItem it
  | some p =>
      if replaceIfExists then Queue.fixAt ⟨s.heap.set p it, s.items⟩ p else s

/-- Modelled from the spec: `Update(item)` of §4.1 — no-op when the key is
absent; otherwise the same overwrite-then-local-reheapify procedure as the
replace branch of `Insert`. -/
def Queue.Update (s : Queue) (it : QItem) : Queue :=
  match s.items it.key with
  | none => s
  | some p => Queue.fixAt ⟨s.heap.set p it, s.items⟩ p

/-- Modelled from the spec: removal of the element at position `p`
(shared by `Remove` and `Pop`) — swap with the last element, truncate by
one, delete the removed key from the map, and, unless `p` was the last
position itself, restore heap order at `p`. -/
def Queue.removeAt (s : Queue) (p : Nat) : Queue :=
  match s.heap[p]? with
  | none => s
  | some rem =>
      if p = s.heap.length - 1 then
        ⟨s.heap.take p, mapErase s.items rem.key⟩
      else
        Queue.fixAt
          ⟨(s.swap p (s.heap.length - 1)).heap.take (s.heap.length - 1),
           mapErase (s.swap p (s.heap.length - 1)).items rem.key⟩ p

/-- Modelled from the spec: `Remove(key)` of §4.1 — no-op when the key is
absent, otherwise remove the element at its index. -/
def Queue.Remove (s : Queue) (k : String) : Queue :=
  match s.items k with
  | none => s
  | some p => s.removeAt p

/-- Modelled from the spec: `Pop()` of §4.1 — not-found on an empty
queue; otherwise capture the root, remove it via the swap-with-last /
truncate / sift-down procedure at index 0, and return it. -/
def Queue.Pop (s : Queue) : Option QItem × Queue :=
  match s.heap[0]? with
  | none => (none, s)
  | some root => (some root, s.removeAt 0)

/-- Modelled from the spec: `Peek()` of §4.1 — the root item, if any,
without mutating state (the model returns no state at all). -/
def Queue.Peek (s : Queue) : Option QItem := s.heap[0]?

/-- Modelled from the spec: `Len()` of §4.1 — the current item count. -/
def Queue.Len (s : Queue) : Nat := s.heap.length

/-- States reachable from the empty queue by the five operations
(`Peek` does not produce a state). -/
inductive Reachable : Queue → Prop where
  | empty : Reachable Queue.empty
  | insert {s : Queue} (it : QItem) (b : Bool) : Reachable s → Reachable (s.Insert it b)
  | update {s : Queue} (it : QItem) : Reachable s → Reachable (s.Update it)
  | remove {s : Queue} (k : String) : Reachable s → Reachable (s.Remove k)
  | pop {s : Queue} : Reachable s → Reachable s.Pop.2

/-- Invariant I1 (heap order): every non-root position's time is at least
its parent's. -/
def heapOrdered (l : List QItem) : Prop :=
  ∀ c, 0 < c → c < l.length → tAt l ((c - 1) / 2) ≤ tAt l c

/-- Invariant I2 (key uniqueness): no two enqueued items share a key. -/
def keysNodup (s : Queue) : Prop := (s.heap.map QItem.key).Nodup

/-- Invariant I3 (index consistency): the key-to-position map sends each
enqueued item's key to its true index, and every map entry points at an
item bearing that key. -/
def idxInv (s : Queue) : Prop :=
  (∀ i a, s.heap[i]? = some a → s.items a.key = some i) ∧
  (∀ k p, s.items k = some p → ∃ a, s.heap[p]? = some a ∧ a.key = k)

/-- The coupled queue invariant: I1, I2 and I3. -/
def Inv (s : Queue) : Prop := heapOrdered s.heap ∧ keysNodup s ∧ idxInv s

end KitQueue

namespace KitQueue

theorem cons_perm_set {α : Type} {xs : List α} {k : Nat} {b x : α}
    (h : xs[k]? = some b) : (x :: xs).Perm (b :: xs.set k x) := by
  induction xs generalizing k with
  | nil => simp at h
  | cons y t ih =>
      cases k with
      | zero =>
          simp only [List.getElem?_cons_zero, Option.some.injEq] at h
          subst h
          simp only [List.set_cons_zero]
          exact List.Perm.swap y x t
      | succ k =>
          simp only [List.getElem?_cons_succ] at h
          simp only [List.set_cons_succ]
          have ih2 := ih h
          exact (List.Perm.swap y x t).trans
            ((ih2.cons y).trans (List.Perm.swap b y (t.set k x)))

theorem set_set_perm {α : Type} {l : List α} {i j : Nat} {a b : α}
    (hi : l[i]? = some a) (hj : l[j]? = some b) (hne : i ≠ j) :
    ((l.set i b).set j a).Perm l := by
  induction l generalizing i j with
  | nil => simp at hi
  | cons x t ih =>
      cases i with
      | zero =>
          cases j with
          | zero => exact absurd rfl hne
          | succ m =>
              simp only [List.getElem?_cons_zero, Option.some.injEq] at hi
              simp only [List.getElem?_cons_succ] at hj
              rw [← hi]
              simp only [List.set_cons_zero, List.set_cons_succ]
              exact (cons_perm_set (x := x) hj).symm
      | succ n =>
          cases j with
          | zero =>
              simp only [List.getElem?_cons_succ] at hi
              simp only [List.getElem?_cons_zero, Option.some.injEq] at hj
              rw [← hj]
              simp only [List.set_cons_succ, List.set_cons_zero]
              exact (cons_perm_set (x := x) hi).symm
          | succ m =>
              simp only [List.getElem?_cons_succ] at hi hj
              simp only [List.set_cons_succ]
              exact (ih hi hj (by omega)).cons x

theorem Queue.swap_eq {s : Queue} {i j : Nat} {a b : QItem}
    (hi : s.heap[i]? = some a) (hj : s.heap[j]? = some b) :
    s.swap i j =
      ⟨(s.heap.set i b).set j a, mapSet (mapSet s.items a.key j) b.key i⟩ := by
  unfold Queue.swap
  rw [hi, hj]

theorem Queue.swap_getElem {s : Queue} {i j : Nat} {a b : QItem}
    (hi : s.heap[i]? = some a) (hj : s.heap[j]? = some b) (hne : i ≠ j) (k : Nat) :
    (s.swap i j).heap[k]? =
      if k = j then some a else if k = i then some b else s.heap[k]? := by
  rw [Queue.swap_eq hi hj]
  have hil : i < s.heap.length := (List.getElem?_eq_some.1 hi).1
  have hjl : j < s.heap.length := (List.getElem?_eq_some.1 hj).1
  by_cases hkj : k = j
  · subst hkj
    simp only [if_pos rfl]
    exact List.getElem?_set_self (by simpa using hjl)
  · by_cases hki : k = i
    · subst hki
      rw [List.getElem?_set_ne (by omega), List.getElem?_set_self hil]
      simp [hkj]
    · rw [List.getElem?_set_ne (by omega), List.getElem?_set_ne (by omega)]
      simp [hkj, hki]

theorem Queue.tAt_swap {s : Queue} {i j : Nat} {a b : QItem}
    (hi : s.heap[i]? = some a) (hj : s.heap[j]? = some b) (hne : i ≠ j) (k : Nat) :
    tAt (s.swap i j).heap k =
      if k = j then a.time else if k = i then b.time else tAt s.heap k := by
  unfold tAt
  rw [Queue.swap_getElem hi hj hne k]
  by_cases hkj : k = j <;> by_cases hki : k = i <;> simp [hkj, hki, hne]

theorem Queue.swap_items_eq {s : Queue} {i j : Nat} {a b : QItem}
    (hi : s.heap[i]? = some a) (hj : s.heap[j]? = some b) :
    (s.swap i j).items = mapSet (mapSet s.items a.key j) b.key i := by
  rw [Queue.swap_eq hi hj]

theorem Queue.swap_perm {s : Queue} {i j : Nat} {a b : QItem}
    (hi : s.heap[i]? = some a) (hj : s.heap[j]? = some b) (hne : i ≠ j) :
    (s.swap i j).heap.Perm s.heap := by
  rw [Queue.swap_eq hi hj]
  exact set_set_perm hi hj hne

end KitQueue

namespace KitQueue

theorem tAt_eq {l : List QItem} {i : Nat} {a : QItem} (h : l[i]? = some a) :
    tAt l i = a.time := by
  unfold tAt; rw [h]

theorem Queue.smallerChild_lt {s : Queue} {i : Nat} (h : 2 * i + 1 < s.heap.length) :
    s.smallerChild i < s.heap.length := by
  unfold Queue.smallerChild; split <;> omega

theorem Queue.siftUp_zero (s : Queue) : s.siftUp 0 = s := by
  unfold Queue.siftUp; simp

theorem Queue.siftUp_step {s : Queue} {i : Nat} {a b : QItem} (h0 : i ≠ 0)
    (ha : s.heap[i]? = some a) (hb : s.heap[(i - 1) / 2]? = some b)
    (hlt : a.time < b.time) :
    s.siftUp i = (s.swap i ((i - 1) / 2)).siftUp ((i - 1) / 2) := by
  rw [Queue.siftUp]
  simp [h0, ha, hb, hlt]

theorem Queue.siftUp_stop {s : Queue} {i : Nat} {a b : QItem} (h0 : i ≠ 0)
    (ha : s.heap[i]? = some a) (hb : s.heap[(i - 1) / 2]? = some b)
    (hlt : ¬a.time < b.time) :
    s.siftUp i = s := by
  rw [Queue.siftUp]
  simp [h0, ha, hb, hlt]

theorem Queue.siftDown_step {s : Queue} {i : Nat} (hl : 2 * i + 1 < s.heap.length)
    (hlt : tAt s.heap (s.smallerChild i) < tAt s.heap i) :
    s.siftDown i = (s.swap i (s.smallerChild i)).siftDown (s.smallerChild i) := by
  rw [Queue.siftDown]
  simp [hl, hlt]

theorem Queue.siftDown_stop {s : Queue} {i : Nat} (hl : 2 * i + 1 < s.heap.length)
    (hlt : ¬tAt s.heap (s.smallerChild i) < tAt s.heap i) :
    s.siftDown i = s := by
  rw [Queue.siftDown]
  simp [hl, hlt]

theorem Queue.siftDown_leaf {s : Queue} {i : Nat} (hl : ¬2 * i + 1 < s.heap.length) :
    s.siftDown i = s := by
  rw [Queue.siftDown]
  simp [hl]

theorem Queue.siftUp_fail {s : Queue} {i : Nat} (h0 : i ≠ 0)
    (hf : ∀ a b : QItem, s.heap[i]? = some a → s.heap[(i - 1) / 2]? = some b → False) :
    s.siftUp i = s := by
  rw [Queue.siftUp]
  cases h1 : s.heap[i]? with
  | none => simp [h0]
  | some a =>
      cases h2 : s.heap[(i - 1) / 2]? with
      | none => simp [h0, h1, h2]
      | some b => exact (hf a b h1 h2).elim

theorem Queue.siftUp_length (s : Queue) (i : Nat) :
    (s.siftUp i).heap.length = s.heap.length := by
  induction s, i using Queue.siftUp.induct with
  | case1 s => rw [Queue.siftUp_zero]
  | case2 s i h0 a b hb ha hlt ih =>
      rw [Queue.siftUp_step h0 ha hb hlt, ih, Queue.swap_heap_length]
  | case3 s i h0 a b hb ha hlt => rw [Queue.siftUp_stop h0 ha hb hlt]
  | case4 s i h0 hfail => rw [Queue.siftUp_fail h0 hfail]

theorem Queue.siftUp_perm (s : Queue) (i : Nat) :
    (s.siftUp i).heap.Perm s.heap := by
  induction s, i using Queue.siftUp.induct with
  | case1 s => rw [Queue.siftUp_zero]
  | case2 s i h0 a b hb ha hlt ih =>
      rw [Queue.siftUp_step h0 ha hb hlt]
      exact ih.trans (Queue.swap_perm ha hb (by omega))
  | case3 s i h0 a b hb ha hlt => rw [Queue.siftUp_stop h0 ha hb hlt]
  | case4 s i h0 hfail => rw [Queue.siftUp_fail h0 hfail]

theorem Queue.siftDown_length (s : Queue) (i : Nat) :
    (s.siftDown i).heap.length = s.heap.length := by
  induction s, i using Queue.siftDown.induct with
  | case1 s i hl hlt ih =>
      rw [Queue.siftDown_step hl hlt, ih, Queue.swap_heap_length]
  | case2 s i hl hlt => rw [Queue.siftDown_stop hl hlt]
  | case3 s i hl => rw [Queue.siftDown_leaf hl]

theorem Queue.siftDown_perm (s : Queue) (i : Nat) :
    (s.siftDown i).heap.Perm s.heap := by
  induction s, i using Queue.siftDown.induct with
  | case1 s i hl hlt ih =>
      rw [Queue.siftDown_step hl hlt]
      have hil : i < s.heap.length := by omega
      have ha := List.getElem?_eq_getElem hil
      have hb := List.getElem?_eq_getElem (Queue.smallerChild_lt hl)
      exact ih.trans (Queue.swap_perm ha hb (by have := s.smallerChild_gt i; omega))
  | case2 s i hl hlt => rw [Queue.siftDown_stop hl hlt]
  | case3 s i hl => rw [Queue.siftDown_leaf hl]

theorem Queue.fixAt_length (s : Queue) (p : Nat) :
    (s.fixAt p).heap.length = s.heap.length := by
  unfold Queue.fixAt
  split
  · exact s.siftUp_length p
  · exact s.siftDown_length p

theorem Queue.fixAt_perm (s : Queue) (p : Nat) :
    (s.fixAt p).heap.Perm s.heap := by
  unfold Queue.fixAt
  split
  · exact s.siftUp_perm p
  · exact s.siftDown_perm p

end KitQueue

namespace KitQueue

theorem key_ne_of_idxInv {s : Queue} {i j : Nat} {a b : QItem}
    (h : idxInv s) (hi : s.heap[i]? = some a) (hj : s.heap[j]? = some b)
    (hne : i ≠ j) : a.key ≠ b.key := by
  intro hk
  have e1 := h.1 i a hi
  have e2 := h.1 j b hj
  rw [hk, e2] at e1
  exact hne (Option.some.inj e1).symm

theorem Queue.idxInv_swap {s : Queue} {i j : Nat} {a b : QItem}
    (h : idxInv s) (hi : s.heap[i]? = some a) (hj : s.heap[j]? = some b)
    (hne : i ≠ j) : idxInv (s.swap i j) := by
  have hab : a.key ≠ b.key := key_ne_of_idxInv h hi hj hne
  have hit := Queue.swap_items_eq hi hj
  constructor
  · intro k x hx
    rw [Queue.swap_getElem hi hj hne k] at hx
    rw [hit]
    by_cases hkj : k = j
    · subst hkj
      rw [if_pos rfl] at hx
      injection hx with hx
      subst hx
      simp [mapSet, hab]
    · by_cases hki : k = i
      · subst hki
        rw [if_neg hkj, if_pos rfl] at hx
        injection hx with hx
        subst hx
        simp [mapSet]
      · rw [if_neg hkj, if_neg hki] at hx
        have hxk := h.1 k x hx
        have hxb : x.key ≠ b.key := by
          intro hkk
          rw [hkk, h.1 j b hj] at hxk
          exact hkj (Option.some.inj hxk).symm
        have hxa : x.key ≠ a.key := by
          intro hkk
          rw [hkk, h.1 i a hi] at hxk
          exact hki (Option.some.inj hxk).symm
        simp [mapSet, hxb, hxa, hxk]
  · intro q p' hp'
    rw [hit] at hp'
    simp only [mapSet] at hp'
    by_cases hqb : q = b.key
    · rw [if_pos hqb] at hp'
      injection hp' with hp'
      subst hp'
      refine ⟨b, ?_, hqb.symm⟩
      rw [Queue.swap_getElem hi hj hne i, if_neg hne, if_pos rfl]
    · by_cases hqa : q = a.key
      · rw [if_neg hqb, if_pos hqa] at hp'
        injection hp' with hp'
        subst hp'
        refine ⟨a, ?_, hqa.symm⟩
        rw [Queue.swap_getElem hi hj hne j, if_pos rfl]
      · rw [if_neg hqb, if_neg hqa] at hp'
        obtain ⟨x, hx, hxq⟩ := h.2 q p' hp'
        have hpj : p' ≠ j := by
          intro hh
          subst hh
          rw [hj] at hx
          have hxb := Option.some.inj hx
          rw [← hxq, hxb] at hqb
          exact hqb rfl
        have hpi : p' ≠ i := by
          intro hh
          subst hh
          rw [hi] at hx
          rw [← hxq, Option.some.inj hx] at hqa
          exact hqa rfl
        refine ⟨x, ?_, hxq⟩
        rw [Queue.swap_getElem hi hj hne p', if_neg hpj, if_neg hpi]
        exact hx

theorem Queue.swap_items_none {s : Queue} {i j : Nat} {a b : QItem} {q : String}
    (h : idxInv s) (hi : s.heap[i]? = some a) (hj : s.heap[j]? = some b)
    (hq : s.items q = none) : (s.swap i j).items q = none := by
  rw [Queue.swap_items_eq hi hj]
  have hqa : q ≠ a.key := by
    intro hh
    rw [hh, h.1 i a hi] at hq
    cases hq
  have hqb : q ≠ b.key := by
    intro hh
    rw [hh, h.1 j b hj] at hq
    cases hq
  simp [mapSet, hqa, hqb, hq]

theorem Queue.siftUp_idxInv : ∀ (s : Queue) (i : Nat), idxInv s → idxInv (s.siftUp i) := by
  intro s i
  induction s, i using Queue.siftUp.induct with
  | case1 s =>
      intro h
      rw [Queue.siftUp_zero]
      exact h
  | case2 s i h0 a b hb ha hlt ih =>
      intro h
      rw [Queue.siftUp_step h0 ha hb hlt]
      exact ih (Queue.idxInv_swap h ha hb (by omega))
  | case3 s i h0 a b hb ha hlt =>
      intro h
      rw [Queue.siftUp_stop h0 ha hb hlt]
      exact h
  | case4 s i h0 hfail =>
      intro h
      rw [Queue.siftUp_fail h0 hfail]
      exact h

theorem Queue.siftUp_items_none {q : String} :
    ∀ (s : Queue) (i : Nat), idxInv s → s.items q = none → (s.siftUp i).items q = none := by
  intro s i
  induction s, i using Queue.siftUp.induct with
  | case1 s =>
      intro h hq
      rw [Queue.siftUp_zero]
      exact hq
  | case2 s i h0 a b hb ha hlt ih =>
      intro h hq
      rw [Queue.siftUp_step h0 ha hb hlt]
      exact ih (Queue.idxInv_swap h ha hb (by omega)) (Queue.swap_items_none h ha hb hq)
  | case3 s i h0 a b hb ha hlt =>
      intro h hq
      rw [Queue.siftUp_stop h0 ha hb hlt]
      exact hq
  | case4 s i h0 hfail =>
      intro h hq
      rw [Queue.siftUp_fail h0 hfail]
      exact hq

theorem Queue.siftDown_idxInv : ∀ (s : Queue) (i : Nat), idxInv s → idxInv (s.siftDown i) := by
  intro s i
  induction s, i using Queue.siftDown.induct with
  | case1 s i hl hlt ih =>
      intro h
      rw [Queue.siftDown_step hl hlt]
      have ha := List.getElem?_eq_getElem (show i < s.heap.length by omega)
      have hb := List.getElem?_eq_getElem (Queue.smallerChild_lt hl)
      exact ih (Queue.idxInv_swap h ha hb (by have := s.smallerChild_gt i; omega))
  | case2 s i hl hlt =>
      intro h
      rw [Queue.siftDown_stop hl hlt]
      exact h
  | case3 s i hl =>
      intro h
      rw [Queue.siftDown_leaf hl]
      exact h

theorem Queue.siftDown_items_none {q : String} :
    ∀ (s : Queue) (i : Nat), idxInv s → s.items q = none → (s.siftDown i).items q = none := by
  intro s i
  induction s, i using Queue.siftDown.induct with
  | case1 s i hl hlt ih =>
      intro h hq
      rw [Queue.siftDown_step hl hlt]
      have ha := List.getElem?_eq_getElem (show i < s.heap.length by omega)
      have hb := List.getElem?_eq_getElem (Queue.smallerChild_lt hl)
      exact ih (Queue.idxInv_swap h ha hb (by have := s.smallerChild_gt i; omega))
        (Queue.swap_items_none h ha hb hq)
  | case2 s i hl hlt =>
      intro h hq
      rw [Queue.siftDown_stop hl hlt]
      exact hq
  | case3 s i hl =>
      intro h hq
      rw [Queue.siftDown_leaf hl]
      exact hq

theorem Queue.fixAt_idxInv {s : Queue} {p : Nat} (h : idxInv s) : idxInv (s.fixAt p) := by
  unfold Queue.fixAt
  split
  · exact Queue.siftUp_idxInv s p h
  · exact Queue.siftDown_idxInv s p h

theorem Queue.fixAt_items_none {s : Queue} {p : Nat} {q : String}
    (h : idxInv s) (hq : s.items q = none) : (s.fixAt p).items q = none := by
  unfold Queue.fixAt
  split
  · exact Queue.siftUp_items_none s p h hq
  · exact Queue.siftDown_items_none s p h hq

end KitQueue

namespace KitQueue

/-- Sift-up precondition: every heap edge holds except possibly the edge
into position `i`, and the children of `i` are no earlier than the value
at `i`'s parent position (so that value may move down into `i`). -/
def upState (l : List QItem) (i : Nat) : Prop :=
  (∀ c, 0 < c → c < l.length → c ≠ i → tAt l ((c - 1) / 2) ≤ tAt l c) ∧
  (0 < i → ∀ c, c < l.length → (c - 1) / 2 = i → tAt l ((i - 1) / 2) ≤ tAt l c)

theorem Queue.siftUp_hOrd :
    ∀ (s : Queue) (i : Nat), i < s.heap.length → upState s.heap i →
      heapOrdered (s.siftUp i).heap := by
  intro s i
  induction s, i using Queue.siftUp.induct with
  | case1 s =>
      intro hlen h
      rw [Queue.siftUp_zero]
      exact fun c hc hcl => h.1 c hc hcl (by omega)
  | case2 s i h0 a b hb ha hlt ih =>
      intro hlen h
      rw [Queue.siftUp_step h0 ha hb hlt]
      have hpi : (i - 1) / 2 < i := by omega
      have hne : i ≠ (i - 1) / 2 := by omega
      have hplen : (i - 1) / 2 < s.heap.length := by omega
      have hta : tAt s.heap i = a.time := tAt_eq ha
      have htb : tAt s.heap ((i - 1) / 2) = b.time := tAt_eq hb
      have ts := fun k => Queue.tAt_swap ha hb hne k
      have hlen2 : (i - 1) / 2 < (s.swap i ((i - 1) / 2)).heap.length := by
        rw [Queue.swap_heap_length]; omega
      refine ih hlen2 ⟨?_, ?_⟩
      · intro c hc hcl hcp
        rw [Queue.swap_heap_length] at hcl
        rw [ts, ts]
        by_cases hci : c = i
        · subst hci
          have hpp : (c - 1) / 2 = (c - 1) / 2 := rfl
          rw [if_pos rfl, if_neg hcp, if_pos rfl]
          omega
        · rw [if_neg hci]
          have hcle : tAt s.heap c = tAt s.heap c := rfl
          by_cases hpar : (c - 1) / 2 = (i - 1) / 2
          · rw [if_pos hpar, if_neg hcp]
            by_cases hpc2 : c = (i - 1) / 2
            · exact absurd hpc2 hcp
            · have := h.1 c hc hcl hci
              rw [hpar, htb] at this
              omega
          · rw [if_neg hpar]
            by_cases hpci : (c - 1) / 2 = i
            · rw [if_pos hpci, if_neg hcp]
              have := h.2 (by omega) c hcl hpci
              rw [htb] at this
              omega
            · rw [if_neg hpci, if_neg hcp]
              exact h.1 c hc hcl hci
      · intro hp0 c hcl hcp
        rw [Queue.swap_heap_length] at hcl
        set p := (i - 1) / 2 with hpdef
        have hgp : (p - 1) / 2 < p := by omega
        have hgpi : (p - 1) / 2 ≠ i := by omega
        have hgpp : (p - 1) / 2 ≠ p := by omega
        rw [ts, ts, if_neg hgpp, if_neg hgpi]
        have hedge_p := h.1 p (by omega) hplen (by omega)
        rw [htb] at hedge_p
        by_cases hci : c = i
        · subst hci
          rw [if_neg (show ¬c = p by omega), if_pos rfl]
          omega
        · have hcp2 : c ≠ p := by omega
          rw [if_neg hcp2, if_neg hci]
          have hc0 : 0 < c := by omega
          have hedge_c := h.1 c hc0 hcl hci
          rw [hcp, htb] at hedge_c
          omega
  | case3 s i h0 a b hb ha hlt =>
      intro hlen h
      rw [Queue.siftUp_stop h0 ha hb hlt]
      intro c hc hcl
      by_cases hci : c = i
      · subst hci
        rw [tAt_eq ha, tAt_eq hb]
        omega
      · exact h.1 c hc hcl hci
  | case4 s i h0 hfail =>
      intro hlen h
      have ha := List.getElem?_eq_getElem hlen
      have hb := List.getElem?_eq_getElem (show (i - 1) / 2 < s.heap.length by omega)
      exact (hfail _ _ ha hb).elim

end KitQueue

namespace KitQueue

theorem Queue.smallerChild_cases (s : Queue) (i : Nat) :
    s.smallerChild i = 2 * i + 1 ∨
      (s.smallerChild i = 2 * i + 2 ∧ 2 * i + 2 < s.heap.length) := by
  unfold Queue.smallerChild
  split
  · next hcond => exact Or.inr ⟨rfl, hcond.1⟩
  · exact Or.inl rfl

theorem Queue.smallerChild_parent (s : Queue) (i : Nat) :
    (s.smallerChild i - 1) / 2 = i := by
  unfold Queue.smallerChild
  split <;> omega

theorem Queue.smallerChild_min {s : Queue} {i : Nat} (hl : 2 * i + 1 < s.heap.length) :
    ∀ c, (c - 1) / 2 = i → 0 < c → c < s.heap.length →
      tAt s.heap (s.smallerChild i) ≤ tAt s.heap c := by
  intro c hcp hc0 hcl
  have hc : c = 2 * i + 1 ∨ c = 2 * i + 2 := by omega
  unfold Queue.smallerChild
  split
  · next hcond =>
      rcases hc with hc | hc <;> subst hc
      · omega
      · exact le_refl _
  · next hcond =>
      rcases hc with hc | hc <;> subst hc
      · exact le_refl _
      · have := not_and.1 hcond hcl
        omega

/-- Sift-down precondition: every heap edge holds except possibly the
edges out of position `i`, and the children of `i` are no earlier than the
value at `i`'s parent position. -/
def downState (l : List QItem) (i : Nat) : Prop :=
  (∀ c, 0 < c → c < l.length → (c - 1) / 2 ≠ i → tAt l ((c - 1) / 2) ≤ tAt l c) ∧
  (0 < i → ∀ c, c < l.length → (c - 1) / 2 = i → tAt l ((i - 1) / 2) ≤ tAt l c)

theorem Queue.siftDown_hOrd :
    ∀ (s : Queue) (i : Nat), downState s.heap i → heapOrdered (s.siftDown i).heap := by
  intro s i
  induction s, i using Queue.siftDown.induct with
  | case1 s i hl hlt ih =>
      intro h
      rw [Queue.siftDown_step hl hlt]
      have hil : i < s.heap.length := by omega
      have hjgt : i < s.smallerChild i := s.smallerChild_gt i
      have hjl : s.smallerChild i < s.heap.length := Queue.smallerChild_lt hl
      have hjp : (s.smallerChild i - 1) / 2 = i := s.smallerChild_parent i
      have ha := List.getElem?_eq_getElem hil
      have hb := List.getElem?_eq_getElem hjl
      have hne : i ≠ s.smallerChild i := by omega
      have ta2 := (tAt_eq ha).symm
      have tb2 := (tAt_eq hb).symm
      have ts := fun k => Queue.tAt_swap ha hb hne k
      refine ih ⟨?_, ?_⟩
      · intro c hc0 hcl hcpar
        rw [Queue.swap_heap_length] at hcl
        rw [ts, ts]
        by_cases hcj : c = s.smallerChild i
        · subst hcj
          rw [hjp, if_neg hne, if_pos rfl, if_pos rfl]
          simp only [ta2, tb2]
          omega
        · rw [if_neg hcj]
          by_cases hci : c = i
          · rw [hci, if_pos rfl, if_neg (show ¬(i - 1) / 2 = s.smallerChild i by omega),
               if_neg (show ¬(i - 1) / 2 = i by omega)]
            simp only [tb2]
            exact h.2 (show 0 < i by omega) (s.smallerChild i) hjl hjp
          · rw [if_neg hci, if_neg hcpar]
            by_cases hpci : (c - 1) / 2 = i
            · rw [if_pos hpci]
              simp only [tb2]
              exact Queue.smallerChild_min hl c hpci hc0 hcl
            · rw [if_neg hpci]
              exact h.1 c hc0 hcl hpci
      · intro hj0 c hcl hcpar
        rw [Queue.swap_heap_length] at hcl
        have hcne_j : c ≠ s.smallerChild i := by omega
        have hcne_i : c ≠ i := by omega
        rw [ts, ts, if_neg hcne_j, if_neg hcne_i, hjp, if_neg hne, if_pos rfl]
        simp only [tb2]
        have hstep := h.1 c (by omega) hcl (by omega)
        rw [hcpar] at hstep
        exact hstep
  | case2 s i hl hlt =>
      intro h
      rw [Queue.siftDown_stop hl hlt]
      intro c hc0 hcl
      by_cases hpci : (c - 1) / 2 = i
      · have h1 := Queue.smallerChild_min hl c hpci hc0 hcl
        rw [hpci]
        omega
      · exact h.1 c hc0 hcl hpci
  | case3 s i hl =>
      intro h
      rw [Queue.siftDown_leaf hl]
      intro c hc0 hcl
      by_cases hpci : (c - 1) / 2 = i
      · omega
      · exact h.1 c hc0 hcl hpci

theorem Queue.fixAt_hOrd {s : Queue} {p : Nat} (hplen : p < s.heap.length)
    (hup : upState s.heap p) (hdown2 : downState s.heap p) :
    heapOrdered (s.fixAt p).heap := by
  unfold Queue.fixAt
  split
  · exact Queue.siftUp_hOrd s p hplen hup
  · exact Queue.siftDown_hOrd s p hdown2

end KitQueue

namespace KitQueue

theorem tAt_append {l l2 : List QItem} {k : Nat} (h : k < l.length) :
    tAt (l ++ l2) k = tAt l k := by
  unfold tAt
  rw [List.getElem?_append, if_pos h]

theorem tAt_take {l : List QItem} {n k : Nat} (h : k < n) :
    tAt (l.take n) k = tAt l k := by
  unfold tAt
  rw [List.getElem?_take, if_pos h]

theorem tAt_set_ne {l : List QItem} {p k : Nat} {x : QItem} (h : p ≠ k) :
    tAt (l.set p x) k = tAt l k := by
  unfold tAt
  rw [List.getElem?_set_ne h]

theorem tAt_set_self {l : List QItem} {p : Nat} {x : QItem} (h : p < l.length) :
    tAt (l.set p x) p = x.time := by
  unfold tAt
  rw [List.getElem?_set_self h]

theorem keysNodup_of_idxInv {s : Queue} (h : idxInv s) : keysNodup s := by
  unfold keysNodup List.Nodup
  rw [List.pairwise_map, List.pairwise_iff_getElem]
  intro i j hi hj hij
  exact key_ne_of_idxInv h (List.getElem?_eq_getElem hi) (List.getElem?_eq_getElem hj)
    (by omega)

/-- Heap order is restored by `fixAt p` when every edge not touching `p`
holds and the children of `p` are no earlier than the value at `p`'s
parent position. -/
theorem Queue.fixAt_hOrd_localized {s2 : Queue} {p : Nat} (hplen : p < s2.heap.length)
    (hA : ∀ c, 0 < c → c < s2.heap.length → c ≠ p → (c - 1) / 2 ≠ p →
      tAt s2.heap ((c - 1) / 2) ≤ tAt s2.heap c)
    (hB : 0 < p → ∀ c, c < s2.heap.length → (c - 1) / 2 = p →
      tAt s2.heap ((p - 1) / 2) ≤ tAt s2.heap c) :
    heapOrdered (s2.fixAt p).heap := by
  unfold Queue.fixAt
  split
  · next hcond =>
      refine Queue.siftUp_hOrd s2 p hplen ⟨?_, hB⟩
      intro c hc0 hcl hcp
      by_cases hpar : (c - 1) / 2 = p
      · have h1 := hB hcond.1 c hcl hpar
        rw [hpar]
        omega
      · exact hA c hc0 hcl hcp hpar
  · next hcond =>
      refine Queue.siftDown_hOrd s2 p ⟨?_, hB⟩
      intro c hc0 hcl hcp
      by_cases hcip : c = p
      · subst hcip
        rcases not_and_or.1 hcond with h1 | h1
        · omega
        · omega
      · exact hA c hc0 hcl hcip hcp

theorem Queue.pushItem_idxInv {s : Queue} {it : QItem}
    (h : idxInv s) (hnone : s.items it.key = none) : idxInv (s.pushItem it) := by
  apply Queue.siftUp_idxInv
  constructor
  · intro k x hx
    simp only [List.getElem?_append] at hx
    by_cases hk : k < s.heap.length
    · rw [if_pos hk] at hx
      have h1 := h.1 k x hx
      have hxk : x.key ≠ it.key := by
        intro hh
        rw [hh, hnone] at h1
        cases h1
      simp [mapSet, hxk, h1]
    · rw [if_neg hk] at hx
      have hkl : k - s.heap.length < [it].length := (List.getElem?_eq_some.1 hx).1
      simp only [List.length_cons, List.length_nil] at hkl
      have hk2 : k = s.heap.length := by omega
      have hx0 : k - s.heap.length = 0 := by omega
      rw [hx0] at hx
      simp only [List.getElem?_cons_zero, Option.some.injEq] at hx
      subst hx
      subst hk2
      simp [mapSet]
  · intro q p' hp'
    simp only [mapSet] at hp'
    by_cases hq : q = it.key
    · rw [if_pos hq] at hp'
      injection hp' with hp'
      subst hp'
      refine ⟨it, ?_, hq.symm⟩
      exact List.getElem?_concat_length s.heap it
    · rw [if_neg hq] at hp'
      obtain ⟨x, hx, hxq⟩ := h.2 q p' hp'
      have hpl : p' < s.heap.length := (List.getElem?_eq_some.1 hx).1
      refine ⟨x, ?_, hxq⟩
      rw [List.getElem?_append, if_pos hpl]
      exact hx

end KitQueue

namespace KitQueue

theorem Queue.pushItem_hOrd {s : Queue} {it : QItem} (h : heapOrdered s.heap) :
    heapOrdered (s.pushItem it).heap := by
  refine Queue.siftUp_hOrd _ _ (by simp) ⟨?_, ?_⟩
  · intro c hc0 hcl hci
    simp only [List.length_append, List.length_cons, List.length_nil] at hcl
    have hcn : c < s.heap.length := by omega
    have hpn : (c - 1) / 2 < s.heap.length := by omega
    rw [tAt_append hpn, tAt_append hcn]
    exact h c hc0 hcn
  · intro h0 c hcl hcp
    simp only [List.length_append, List.length_cons, List.length_nil] at hcl
    omega

theorem Queue.pushItem_perm (s : Queue) (it : QItem) :
    (s.pushItem it).heap.Perm (s.heap ++ [it]) :=
  Queue.siftUp_perm _ _

theorem Queue.pushItem_length (s : Queue) (it : QItem) :
    (s.pushItem it).heap.length = s.heap.length + 1 := by
  unfold Queue.pushItem
  rw [Queue.siftUp_length]
  simp

theorem Queue.Insert_new {s : Queue} {it : QItem} (hnone : s.items it.key = none)
    (b : Bool) : s.Insert it b = s.pushItem it := by
  unfold Queue.Insert
  rw [hnone]

theorem Queue.Insert_skip {s : Queue} {it : QItem} {p : Nat}
    (hp : s.items it.key = some p) : s.Insert it false = s := by
  unfold Queue.Insert
  rw [hp]
  simp

theorem Queue.Insert_replace {s : Queue} {it : QItem} {p : Nat}
    (hp : s.items it.key = some p) :
    s.Insert it true = Queue.fixAt ⟨s.heap.set p it, s.items⟩ p := by
  unfold Queue.Insert
  rw [hp]
  simp

theorem Queue.Update_absent {s : Queue} {it : QItem} (hnone : s.items it.key = none) :
    s.Update it = s := by
  unfold Queue.Update
  rw [hnone]

theorem Queue.Update_mem {s : Queue} {it : QItem} {p : Nat}
    (hp : s.items it.key = some p) :
    s.Update it = Queue.fixAt ⟨s.heap.set p it, s.items⟩ p := by
  unfold Queue.Update
  rw [hp]

theorem Queue.Remove_absent {s : Queue} {k : String} (hnone : s.items k = none) :
    s.Remove k = s := by
  unfold Queue.Remove
  rw [hnone]

theorem Queue.Remove_mem {s : Queue} {k : String} {p : Nat}
    (hp : s.items k = some p) : s.Remove k = s.removeAt p := by
  unfold Queue.Remove
  rw [hp]

/-- The overwrite-then-local-reheapify shared by the replace branch of
`Insert` and by `Update`, given a consistent state with `it.key` at `p`:
heap order and index consistency hold afterwards; the heap is the old one
with position `p` overwritten; the length is unchanged. -/
theorem Queue.replace_spec {s : Queue} {it : QItem} {p : Nat}
    (hOrd : heapOrdered s.heap) (hIdx : idxInv s) (hp : s.items it.key = some p) :
    heapOrdered (Queue.fixAt ⟨s.heap.set p it, s.items⟩ p).heap ∧
    idxInv (Queue.fixAt ⟨s.heap.set p it, s.items⟩ p) ∧
    (Queue.fixAt ⟨s.heap.set p it, s.items⟩ p).heap.Perm (s.heap.set p it) ∧
    (Queue.fixAt ⟨s.heap.set p it, s.items⟩ p).heap.length = s.heap.length := by
  obtain ⟨a, ha, hak⟩ := hIdx.2 it.key p hp
  have hplen : p < s.heap.length := (List.getElem?_eq_some.1 ha).1
  refine ⟨?_, ?_, ?_, ?_⟩
  · refine Queue.fixAt_hOrd_localized (by simpa using hplen) ?_ ?_
    · intro c hc0 hcl hcp hpcp
      simp only [List.length_set] at hcl
      show tAt (s.heap.set p it) ((c - 1) / 2) ≤ tAt (s.heap.set p it) c
      rw [tAt_set_ne (by omega), tAt_set_ne (by omega)]
      exact hOrd c hc0 hcl
    · intro hp0 c hcl hcp
      simp only [List.length_set] at hcl
      show tAt (s.heap.set p it) ((p - 1) / 2) ≤ tAt (s.heap.set p it) c
      rw [tAt_set_ne (by omega), tAt_set_ne (by omega)]
      have e1 := hOrd p hp0 hplen
      have e2 := hOrd c (by omega) hcl
      rw [hcp] at e2
      omega
  · refine Queue.fixAt_idxInv ⟨?_, ?_⟩
    · intro k x hx
      by_cases hkp : k = p
      · subst hkp
        rw [List.getElem?_set_self hplen] at hx
        injection hx with hx
        subst hx
        exact hp
      · rw [List.getElem?_set_ne (by omega)] at hx
        exact hIdx.1 k x hx
    · intro q p' hp'
      obtain ⟨x, hx, hxq⟩ := hIdx.2 q p' hp'
      by_cases hpp : p' = p
      · subst hpp
        rw [ha] at hx
        injection hx with hx
        refine ⟨it, List.getElem?_set_self hplen, ?_⟩
        rw [← hxq, ← hx, hak]
      · exact ⟨x, by rw [List.getElem?_set_ne (by omega)]; exact hx, hxq⟩
  · exact Queue.fixAt_perm _ p
  · rw [Queue.fixAt_length]
    simp

end KitQueue

namespace KitQueue

theorem Queue.removeAt_eq {s : Queue} {p : Nat} {a : QItem} (hp : s.heap[p]? = some a) :
    s.removeAt p =
      if p = s.heap.length - 1 then ⟨s.heap.take p, mapErase s.items a.key⟩
      else Queue.fixAt
        ⟨(s.swap p (s.heap.length - 1)).heap.take (s.heap.length - 1),
         mapErase (s.swap p (s.heap.length - 1)).items a.key⟩ p := by
  unfold Queue.removeAt
  rw [hp]

theorem take_concat_last {l : List QItem} (h : l ≠ []) (hb : l.length - 1 < l.length) :
    l.take (l.length - 1) ++ [l[l.length - 1]] = l := by
  have e1 := List.dropLast_concat_getLast h
  rw [List.dropLast_eq_take, List.getLast_eq_getElem] at e1
  exact e1


/-- Removal at an occupied position `p` (shared by `Remove` and `Pop`):
in a consistent, heap-ordered state it shrinks the heap by one, removes
exactly the item at `p` (as a multiset), keeps index consistency, drops
the removed key from the map, and restores heap order. -/
theorem Queue.removeAt_spec {s : Queue} {p : Nat} {a : QItem}
    (hOrd : heapOrdered s.heap) (hIdx : idxInv s) (hp : s.heap[p]? = some a) :
    (s.removeAt p).heap.length = s.heap.length - 1 ∧
    (a :: (s.removeAt p).heap).Perm s.heap ∧
    idxInv (s.removeAt p) ∧
    (s.removeAt p).items a.key = none ∧
    heapOrdered (s.removeAt p).heap := by
  have hplen : p < s.heap.length := (List.getElem?_eq_some.1 hp).1
  have hnil : s.heap ≠ [] := List.length_pos.1 (by omega)
  have hlast : s.heap.length - 1 < s.heap.length := by omega
  rw [Queue.removeAt_eq hp]
  by_cases heq : p = s.heap.length - 1
  · rw [if_pos heq]
    have hkey : ∀ k x, (s.heap.take p)[k]? = some x → k < p ∧ s.heap[k]? = some x := by
      intro k x hx
      rw [List.getElem?_take] at hx
      by_cases hk : k < p
      · exact ⟨hk, by rw [if_pos hk] at hx; exact hx⟩
      · rw [if_neg hk] at hx
        cases hx
    refine ⟨?_, ?_, ⟨?_, ?_⟩, ?_, ?_⟩
    · simp only [List.length_take]
      omega
    · have hb2 : s.heap[s.heap.length - 1] = a := by
        have h4 := heq ▸ hp
        rw [List.getElem?_eq_getElem hlast] at h4
        exact Option.some.inj h4
      have e1 := take_concat_last hnil hlast
      rw [hb2] at e1
      rw [← heq] at e1
      have h2 := (List.perm_append_singleton a (s.heap.take p)).symm
      rw [e1] at h2
      exact h2
    · intro k x hx
      obtain ⟨hk, hx2⟩ := hkey k x hx
      have h1 := hIdx.1 k x hx2
      have hxa : x.key ≠ a.key := by
        intro hh
        rw [hh, hIdx.1 p a hp] at h1
        injection h1 with h1
        omega
      simp only [mapErase, if_neg hxa]
      exact h1
    · intro q p' hp'
      simp only [mapErase] at hp'
      by_cases hq : q = a.key
      · rw [if_pos hq] at hp'
        cases hp'
      · rw [if_neg hq] at hp'
        obtain ⟨x, hx, hxq⟩ := hIdx.2 q p' hp'
        have hpl : p' < s.heap.length := (List.getElem?_eq_some.1 hx).1
        have hpp : p' ≠ p := by
          intro hh
          subst hh
          rw [hp] at hx
          injection hx with hx
          rw [← hxq, hx] at hq
          exact hq rfl
        refine ⟨x, ?_, hxq⟩
        rw [List.getElem?_take, if_pos (by omega)]
        exact hx
    · simp [mapErase]
    · intro c hc0 hcl
      simp only [List.length_take] at hcl
      have hcp : c < p := by omega
      rw [tAt_take (by omega), tAt_take hcp]
      exact hOrd c hc0 (by omega)
  · rw [if_neg heq]
    have hb := List.getElem?_eq_getElem hlast
    have hswne : p ≠ s.heap.length - 1 := heq
    have hs1get := fun k => Queue.swap_getElem hp hb hswne k
    have hs1len : (s.swap p (s.heap.length - 1)).heap.length = s.heap.length :=
      Queue.swap_heap_length s p (s.heap.length - 1)
    have hIdx1 : idxInv (s.swap p (s.heap.length - 1)) :=
      Queue.idxInv_swap hIdx hp hb hswne
    have hs2get : ∀ k,
        ((s.swap p (s.heap.length - 1)).heap.take (s.heap.length - 1))[k]? =
          if k < s.heap.length - 1 then
            (if k = p then some (s.heap[s.heap.length - 1]) else s.heap[k]?)
          else none := by
      intro k
      rw [List.getElem?_take]
      by_cases hk : k < s.heap.length - 1
      · rw [if_pos hk, if_pos hk, hs1get k, if_neg (by omega)]
      · rw [if_neg hk, if_neg hk]
    have hs2len :
        ((s.swap p (s.heap.length - 1)).heap.take (s.heap.length - 1)).length =
          s.heap.length - 1 := by
      simp only [List.length_take, hs1len]
      omega
    have hs2eq :
        (s.swap p (s.heap.length - 1)).heap.take (s.heap.length - 1) =
          (s.heap.take (s.heap.length - 1)).set p (s.heap[s.heap.length - 1]) := by
      apply List.ext_getElem?
      intro k
      rw [hs2get k, List.getElem?_set]
      by_cases hkp : p = k
      · subst hkp
        have hmin : p < (s.heap.take (s.heap.length - 1)).length := by
          simp only [List.length_take]
          omega
        rw [if_pos (show p < s.heap.length - 1 by omega), if_pos rfl, if_pos rfl,
           if_pos hmin]
      · rw [if_neg hkp, List.getElem?_take]
        by_cases hk : k < s.heap.length - 1
        · rw [if_pos hk, if_pos hk, if_neg (by omega)]
        · rw [if_neg hk, if_neg hk]
    have hidx2 : idxInv
        ⟨(s.swap p (s.heap.length - 1)).heap.take (s.heap.length - 1),
         mapErase (s.swap p (s.heap.length - 1)).items a.key⟩ := by
      constructor
      · intro k x hx
        rw [hs2get k] at hx
        by_cases hk : k < s.heap.length - 1
        · rw [if_pos hk] at hx
          have hx1 : (s.swap p (s.heap.length - 1)).heap[k]? = some x := by
            rw [hs1get k, if_neg (by omega)]
            exact hx
          have h1 := hIdx1.1 k x hx1
          have hlastget : (s.swap p (s.heap.length - 1)).heap[s.heap.length - 1]? = some a := by
            rw [hs1get (s.heap.length - 1), if_pos rfl]
          have hxa : x.key ≠ a.key := by
            intro hh
            rw [hh, hIdx1.1 (s.heap.length - 1) a hlastget] at h1
            injection h1 with h1
            omega
          simp only [mapErase, if_neg hxa]
          exact h1
        · rw [if_neg hk] at hx
          cases hx
      · intro q p' hp'
        simp only [mapErase] at hp'
        by_cases hq : q = a.key
        · rw [if_pos hq] at hp'
          cases hp'
        · rw [if_neg hq] at hp'
          obtain ⟨x, hx, hxq⟩ := hIdx1.2 q p' hp'
          have hpl : p' < s.heap.length := by
            have h7 := (List.getElem?_eq_some.1 hx).1
            rw [hs1len] at h7
            exact h7
          have hpp : p' ≠ s.heap.length - 1 := by
            intro hh
            subst hh
            rw [hs1get (s.heap.length - 1), if_pos rfl] at hx
            injection hx with hx
            rw [← hxq, hx] at hq
            exact hq rfl
          refine ⟨x, ?_, hxq⟩
          rw [hs2get p', if_pos (by omega)]
          rw [hs1get p', if_neg hpp] at hx
          exact hx
    refine ⟨?_, ?_, ?_, ?_, ?_⟩
    · rw [Queue.fixAt_length]
      exact hs2len
    · have hperm1 := Queue.fixAt_perm
        ⟨(s.swap p (s.heap.length - 1)).heap.take (s.heap.length - 1),
         mapErase (s.swap p (s.heap.length - 1)).items a.key⟩ p
      refine (hperm1.cons a).trans ?_
      show (a :: (s.swap p (s.heap.length - 1)).heap.take (s.heap.length - 1)).Perm s.heap
      rw [hs2eq]
      have htkp : (s.heap.take (s.heap.length - 1))[p]? = some a := by
        rw [List.getElem?_take, if_pos (by omega)]
        exact hp
      have h5 := (cons_perm_set (x := s.heap[s.heap.length - 1]) htkp).symm
      have h6 := (List.perm_append_singleton (s.heap[s.heap.length - 1])
        (s.heap.take (s.heap.length - 1))).symm
      have e1 := take_concat_last hnil hlast
      rw [e1] at h6
      exact h5.trans h6
    · exact Queue.fixAt_idxInv hidx2
    · exact Queue.fixAt_items_none hidx2 (by simp [mapErase])
    · have hs2t : ∀ k, k < s.heap.length - 1 →
          tAt ((s.swap p (s.heap.length - 1)).heap.take (s.heap.length - 1)) k =
            if k = p then (s.heap[s.heap.length - 1]).time else tAt s.heap k := by
        intro k hk
        unfold tAt
        rw [hs2get k, if_pos hk]
        by_cases hkp : k = p
        · rw [if_pos hkp, if_pos hkp]
        · rw [if_neg hkp, if_neg hkp]
      refine Queue.fixAt_hOrd_localized (by rw [hs2len]; omega) ?_ ?_
      · intro c hc0 hcl hcp hpcp
        rw [hs2len] at hcl
        rw [hs2t c hcl, if_neg hcp, hs2t ((c - 1) / 2) (by omega), if_neg hpcp]
        exact hOrd c hc0 (by omega)
      · intro hp0 c hcl hcp
        rw [hs2len] at hcl
        rw [hs2t c hcl, if_neg (by omega), hs2t ((p - 1) / 2) (by omega),
           if_neg (by omega)]
        have e1 := hOrd p hp0 hplen
        have e2 := hOrd c (by omega) (by omega)
        rw [hcp] at e2
        omega

end KitQueue

namespace KitQueue

theorem Queue.empty_inv : Inv Queue.empty := by
  refine ⟨?_, ?_, ?_, ?_⟩
  · intro c hc0 hcl
    simp [Queue.empty] at hcl
  · simp [keysNodup, Queue.empty]
  · intro i a ha
    simp [Queue.empty] at ha
  · intro k p hp
    simp [Queue.empty] at hp

theorem Queue.Insert_inv {s : Queue} (h : Inv s) (it : QItem) (b : Bool) :
    Inv (s.Insert it b) := by
  cases hkey : s.items it.key with
  | none =>
      rw [Queue.Insert_new hkey]
      have hidx := Queue.pushItem_idxInv h.2.2 hkey
      exact ⟨Queue.pushItem_hOrd h.1, keysNodup_of_idxInv hidx, hidx⟩
  | some p =>
      cases b with
      | false =>
          rw [Queue.Insert_skip hkey]
          exact h
      | true =>
          rw [Queue.Insert_replace hkey]
          obtain ⟨hOrd2, hidx2, _, _⟩ := Queue.replace_spec h.1 h.2.2 hkey
          exact ⟨hOrd2, keysNodup_of_idxInv hidx2, hidx2⟩

theorem Queue.Update_inv {s : Queue} (h : Inv s) (it : QItem) : Inv (s.Update it) := by
  cases hkey : s.items it.key with
  | none =>
      rw [Queue.Update_absent hkey]
      exact h
  | some p =>
      rw [Queue.Update_mem hkey]
      obtain ⟨hOrd2, hidx2, _, _⟩ := Queue.replace_spec h.1 h.2.2 hkey
      exact ⟨hOrd2, keysNodup_of_idxInv hidx2, hidx2⟩

theorem Queue.Remove_inv {s : Queue} (h : Inv s) (k : String) : Inv (s.Remove k) := by
  cases hkey : s.items k with
  | none =>
      rw [Queue.Remove_absent hkey]
      exact h
  | some p =>
      rw [Queue.Remove_mem hkey]
      obtain ⟨a, ha, hak⟩ := h.2.2.2 k p hkey
      obtain ⟨_, _, hidx2, _, hOrd2⟩ := Queue.removeAt_spec h.1 h.2.2 ha
      exact ⟨hOrd2, keysNodup_of_idxInv hidx2, hidx2⟩

theorem Queue.Pop_empty {s : Queue} (h : s.heap[0]? = none) : s.Pop = (none, s) := by
  unfold Queue.Pop
  rw [h]

theorem Queue.Pop_mem {s : Queue} {r : QItem} (h : s.heap[0]? = some r) :
    s.Pop = (some r, s.removeAt 0) := by
  unfold Queue.Pop
  rw [h]

theorem Queue.Pop_inv {s : Queue} (h : Inv s) : Inv s.Pop.2 := by
  cases h0 : s.heap[0]? with
  | none =>
      rw [Queue.Pop_empty h0]
      exact h
  | some r =>
      rw [Queue.Pop_mem h0]
      obtain ⟨_, _, hidx2, _, hOrd2⟩ := Queue.removeAt_spec h.1 h.2.2 h0
      exact ⟨hOrd2, keysNodup_of_idxInv hidx2, hidx2⟩

/-- Every reachable queue state satisfies the coupled invariant. -/
theorem reachable_inv {s : Queue} (h : Reachable s) : Inv s := by
  induction h with
  | empty => exact Queue.empty_inv
  | insert it b _ ih => exact Queue.Insert_inv ih it b
  | update it _ ih => exact Queue.Update_inv ih it
  | remove k _ ih => exact Queue.Remove_inv ih k
  | pop _ ih => exact Queue.Pop_inv ih

theorem root_min {l : List QItem} (hOrd : heapOrdered l) :
    ∀ i, i < l.length → tAt l 0 ≤ tAt l i := by
  intro i
  induction i using Nat.strong_induction_on with
  | _ i ih =>
      intro hil
      rcases Nat.eq_zero_or_pos i with h | h
      · subst h
        exact le_refl _
      · have h1 := hOrd i h hil
        have h2 := ih ((i - 1) / 2) (by omega) (by omega)
        omega

/-- Repeatedly `Pop` with the given amount of fuel, collecting results;
`drain` uses fuel `Len`, which empties the queue. -/
def drainGo : Nat → Queue → List QItem
  | 0, _ => []
  | n + 1, s =>
      match s.Pop with
      | (none, _) => []
      | (some it, s2) => it :: drainGo n s2

/-- The sequence of items obtained by calling `Pop()` repeatedly until the
queue reports empty. -/
def drain (s : Queue) : List QItem := drainGo s.Len s

theorem drainGo_mem {x : QItem} :
    ∀ (n : Nat) (s : Queue), Inv s → x ∈ drainGo n s → x ∈ s.heap := by
  intro n
  induction n with
  | zero =>
      intro s _ hx
      simp [drainGo] at hx
  | succ n ih =>
      intro s hInv hx
      cases h0 : s.heap[0]? with
      | none =>
          unfold drainGo at hx
          rw [Queue.Pop_empty h0] at hx
          simp at hx
      | some r =>
          unfold drainGo at hx
          rw [Queue.Pop_mem h0] at hx
          obtain ⟨_, hperm, hidx2, _, hOrd2⟩ := Queue.removeAt_spec hInv.1 hInv.2.2 h0
          rcases List.mem_cons.1 hx with hx | hx
          · subst hx
            exact List.mem_iff_getElem?.2 ⟨0, h0⟩
          · have hx2 := ih (s.removeAt 0)
              ⟨hOrd2, keysNodup_of_idxInv hidx2, hidx2⟩ hx
            exact hperm.mem_iff.1 (List.mem_cons_of_mem r hx2)

theorem drainGo_sorted :
    ∀ (n : Nat) (s : Queue), Inv s →
      List.Pairwise (fun u v : QItem => u.time ≤ v.time) (drainGo n s) := by
  intro n
  induction n with
  | zero =>
      intro s _
      simp [drainGo]
  | succ n ih =>
      intro s hInv
      cases h0 : s.heap[0]? with
      | none =>
          unfold drainGo
          rw [Queue.Pop_empty h0]
          simp
      | some r =>
          unfold drainGo
          rw [Queue.Pop_mem h0]
          obtain ⟨_, hperm, hidx2, _, hOrd2⟩ := Queue.removeAt_spec hInv.1 hInv.2.2 h0
          have hInv2 : Inv (s.removeAt 0) := ⟨hOrd2, keysNodup_of_idxInv hidx2, hidx2⟩
          refine List.Pairwise.cons ?_ (ih _ hInv2)
          intro x hx
          have hxmem : x ∈ s.heap :=
            hperm.mem_iff.1 (List.mem_cons_of_mem r (drainGo_mem n _ hInv2 hx))
          obtain ⟨i, hi⟩ := List.mem_iff_getElem?.1 hxmem
          have h1 := root_min hInv.1 i (List.getElem?_eq_some.1 hi).1
          rw [tAt_eq h0, tAt_eq hi] at h1
          exact h1

theorem drainGo_perm :
    ∀ (n : Nat) (s : Queue), Inv s → n = s.Len → (drainGo n s).Perm s.heap := by
  intro n
  induction n with
  | zero =>
      intro s _ hn
      have : s.heap = [] := List.length_eq_zero.1 hn.symm
      rw [this]
      simp [drainGo]
  | succ n ih =>
      intro s hInv hn
      have hlen0 : 0 < s.heap.length := by
        unfold Queue.Len at hn
        omega
      have h0 := List.getElem?_eq_getElem hlen0
      unfold drainGo
      rw [Queue.Pop_mem h0]
      obtain ⟨hlen2, hperm, hidx2, _, hOrd2⟩ := Queue.removeAt_spec hInv.1 hInv.2.2 h0
      have hInv2 : Inv (s.removeAt 0) := ⟨hOrd2, keysNodup_of_idxInv hidx2, hidx2⟩
      have hn2 : n = (s.removeAt 0).Len := by
        unfold Queue.Len at hn ⊢
        omega
      exact ((ih _ hInv2 hn2).cons _).trans hperm

end KitQueue

namespace KitErrors

theorem jsonFold_tag_ne {tag : String} (ht : ¬tag = "") :
    ∀ (ds : List Detail) (acc : ErrorJSON), ds.foldl (jsonCodeStep tag) acc = acc := by
  intro ds
  induction ds with
  | nil => intro acc; rfl
  | cons d ds ih =>
      intro acc
      have hstep : jsonCodeStep tag acc d = acc := by
        cases d <;> simp [jsonCodeStep, ht]
      rw [List.foldl_cons, hstep, ih]

theorem reasonFold_shift :
    ∀ (ds : List Detail) (o : Option String),
      ds.foldl reasonStep o =
        match lastNonEmptyReason ds with
        | some r => some r
        | none => o := by
  intro ds
  induction ds with
  | nil => intro o; rfl
  | cons d ds ih =>
      intro o
      rw [List.foldl_cons]
      rw [ih (reasonStep o d)]
      show _ = match lastNonEmptyReason (d :: ds) with
        | some r => some r
        | none => o
      have hl : lastNonEmptyReason (d :: ds) = ds.foldl reasonStep (reasonStep none d) := by
        unfold lastNonEmptyReason
        rw [List.foldl_cons]
      rw [hl, ih (reasonStep none d)]
      cases hds : lastNonEmptyReason ds with
      | some r => rfl
      | none =>
          cases d with
          | errorInfo dom reason md =>
              by_cases hr : reason = "" <;> simp [reasonStep, hr]
          | resourceInfo a1 a2 a3 a4 => rfl
          | retryInfo a1 => rfl
          | otherDetail a1 => rfl

theorem jsonFold_tag_empty :
    ∀ (ds : List Detail) (acc : ErrorJSON),
      (ds.foldl (jsonCodeStep "") acc).errorCode =
        match lastNonEmptyReason ds with
        | some r => r
        | none => acc.errorCode := by
  intro ds
  induction ds with
  | nil => intro acc; rfl
  | cons d ds ih =>
      intro acc
      rw [List.foldl_cons, ih (jsonCodeStep "" acc d)]
      have hl : lastNonEmptyReason (d :: ds) = ds.foldl reasonStep (reasonStep none d) := by
        unfold lastNonEmptyReason
        rw [List.foldl_cons]
      rw [hl, reasonFold_shift ds (reasonStep none d)]
      cases hds : lastNonEmptyReason ds with
      | some r => rfl
      | none =>
          cases d with
          | errorInfo dom reason md =>
              by_cases hr : reason = "" <;> simp [reasonStep, jsonCodeStep, hr]
          | resourceInfo a1 a2 a3 a4 => rfl
          | retryInfo a1 => rfl
          | otherDetail a1 => rfl

end KitErrors

namespace KitErrors

/-- C8: `e.Is(targetI)` returns true exactly when `targetI` converts to a
`*Error` via `errors.As` and the two errors agree on `Tag`, `GrpcCode` and
`HttpCode`; the `Message` and `Details` fields of the receiver play no
role in the comparison. -/
theorem goIs_iff_as_and_fields_eq (e : Error) (targetI : GoError) :
    (e.goIs targetI = true ↔
      ∃ t : Error, errorsAs targetI = some t ∧
        e.tag = t.tag ∧ e.grpcCode = t.grpcCode ∧ e.httpCode = t.httpCode) ∧
    (∀ (msg : String) (ds : List Detail),
      ({ e with message := msg, details := ds } : Error).goIs targetI = e.goIs targetI) := by
  constructor
  · cases h : errorsAs targetI with
    | none =>
        unfold Error.goIs
        rw [h]
        simp
    | some t =>
        unfold Error.goIs
        rw [h]
        constructor
        · intro hb
          simp only [Bool.and_eq_true, beq_iff_eq] at hb
          exact ⟨t, rfl, hb.1.1, hb.1.2, hb.2⟩
        · rintro ⟨t2, ht2, h1, h2, h3⟩
          injection ht2 with ht2
          subst ht2
          simp [h1, h2, h3]
  · intro msg ds
    unfold Error.goIs
    cases h : errorsAs targetI <;> rfl

/-- C9: the `Error()` method on a nil `*Error` receiver returns the empty
string (the nil guard makes it total), and on a non-nil receiver it
returns the formatted string built from the gRPC code's name and the
`Message` field. -/
theorem errorMethod_nil_safe :
    errorMethod none = "" ∧
    ∀ e : Error, errorMethod (some e) =
      sprintfErrString (codeString e.grpcCode) e.message :=
  ⟨rfl, fun _ => rfl⟩

/-- C10: the `errorCode` field produced by `JSONErrorValue` is the `Tag`
when it is non-empty; otherwise it is the reason of the last `ErrorInfo`
detail with a non-empty reason, and `http.StatusText(HttpCode)` when there
is no such detail. -/
theorem jsonErrorValue_errorCode (e : Error) :
    (e.jsonErrorValue).errorCode =
      if e.tag = "" then
        match lastNonEmptyReason e.details with
        | some r => r
        | none => statusText e.httpCode
      else e.tag := by
  unfold Error.jsonErrorValue
  by_cases ht : e.tag = ""
  · rw [if_pos ht, ht]
    rw [jsonFold_tag_empty e.details]
    cases hds : lastNonEmptyReason e.details with
    | some r => rfl
    | none =>
        show (if ("" : String) ≠ "" then "" else statusText e.httpCode) = statusText e.httpCode
        simp
  · rw [if_neg ht, jsonFold_tag_ne ht]
    show (if e.tag ≠ "" then e.tag else statusText e.httpCode) = e.tag
    simp [ht]

end KitErrors

namespace KitQueue

/-- C1: for every reachable queue state (any sequence of Insert, Update,
Remove, Pop and Peek operations applied to the empty queue), calling
`Pop()` repeatedly until the queue reports empty yields the items in
non-decreasing `ScheduledTime` order. -/
theorem c1_pop_order_nondecreasing (s : Queue) (h : Reachable s) :
    List.Pairwise (fun u v : QItem => u.time ≤ v.time) (drain s) :=
  drainGo_sorted s.Len s (reachable_inv h)

theorem c1_pop_order_nondecreasing_witness :
    List.Pairwise (fun u v : QItem => u.time ≤ v.time)
      (drain ((Queue.empty.Insert ⟨"2", 22⟩ false).Insert ⟨"1", 11⟩ false)) :=
  c1_pop_order_nondecreasing _
    (Reachable.insert _ _ (Reachable.insert _ _ Reachable.empty))

/-- C2: every reachable queue state satisfies the coupled invariants —
I1 (heap order), I2 (key uniqueness) and I3 (index consistency) — and
`Insert`, `Update`, `Remove` and `Pop` each preserve them (`Peek` returns
no state in the model, so it cannot mutate anything). -/
theorem c2_invariants (s : Queue) (h : Reachable s) :
    (heapOrdered s.heap ∧ keysNodup s ∧ idxInv s) ∧
    (∀ (it : QItem) (b : Bool), Inv (s.Insert it b)) ∧
    (∀ it : QItem, Inv (s.Update it)) ∧
    (∀ k : String, Inv (s.Remove k)) ∧
    Inv s.Pop.2 := by
  have hI := reachable_inv h
  exact ⟨hI, fun it b => Queue.Insert_inv hI it b, fun it => Queue.Update_inv hI it,
    fun k => Queue.Remove_inv hI k, Queue.Pop_inv hI⟩

theorem c2_invariants_witness :
    (heapOrdered Queue.empty.heap ∧ keysNodup Queue.empty ∧ idxInv Queue.empty) ∧
    (∀ (it : QItem) (b : Bool), Inv (Queue.empty.Insert it b)) ∧
    (∀ it : QItem, Inv (Queue.empty.Update it)) ∧
    (∀ k : String, Inv (Queue.empty.Remove k)) ∧
    Inv Queue.empty.Pop.2 :=
  c2_invariants Queue.empty Reachable.empty

/-- C3: inserting an item whose key is already enqueued with
`replaceIfExists = false` is a no-op — the whole state (existing item,
its scheduled time, its position, the index map and hence `Len`) is
unchanged, so first write wins; concretely, inserting key "2" at time
2022 and then key "2" at time 2029 without replace leaves `Len() = 1`
and popping returns the original 2022 item. -/
theorem c3_insert_duplicate_noop (s : Queue) (it : QItem) (p : Nat)
    (h : s.items it.key = some p) :
    s.Insert it false = s ∧
    ((Queue.empty.Insert ⟨"2", 2022⟩ false).Insert ⟨"2", 2029⟩ false).Len = 1 ∧
    ((Queue.empty.Insert ⟨"2", 2022⟩ false).Insert ⟨"2", 2029⟩ false).Pop.1 =
      some ⟨"2", 2022⟩ := by
  refine ⟨Queue.Insert_skip h, ?_, ?_⟩ <;>
    simp [Queue.Insert, Queue.pushItem, Queue.empty, mapSet, mapErase, Queue.siftUp,
      Queue.Pop, Queue.removeAt, Queue.fixAt, Queue.siftDown, Queue.swap, tAt,
      Queue.smallerChild, Queue.Len]

theorem c3_insert_duplicate_noop_witness :
    (Queue.empty.Insert ⟨"2", 2022⟩ false).Insert ⟨"2", 2029⟩ false =
      Queue.empty.Insert ⟨"2", 2022⟩ false ∧
    ((Queue.empty.Insert ⟨"2", 2022⟩ false).Insert ⟨"2", 2029⟩ false).Len = 1 ∧
    ((Queue.empty.Insert ⟨"2", 2022⟩ false).Insert ⟨"2", 2029⟩ false).Pop.1 =
      some ⟨"2", 2022⟩ :=
  c3_insert_duplicate_noop (Queue.empty.Insert ⟨"2", 2022⟩ false) ⟨"2", 2029⟩ 0
    (by simp [Queue.Insert, Queue.pushItem, Queue.empty, mapSet, Queue.siftUp])

/-- C6: `Remove` and `Update` on an absent key are no-ops that leave the
entire state (hence `Len` and the pop order) unchanged, and after a
successful `Remove` the key is gone, so repeating the `Remove` is again a
no-op. -/
theorem c6_absent_noop (s : Queue) (k : String) (it : QItem) (p : Nat) :
    (s.items k = none → s.Remove k = s) ∧
    (s.items it.key = none → s.Update it = s) ∧
    (Reachable s → s.items k = some p →
      (s.Remove k).items k = none ∧ (s.Remove k).Remove k = s.Remove k) := by
  refine ⟨fun h => Queue.Remove_absent h, fun h => Queue.Update_absent h, fun hr hp => ?_⟩
  have hI := reachable_inv hr
  obtain ⟨a, ha, hak⟩ := hI.2.2.2 k p hp
  obtain ⟨_, _, _, hnone, _⟩ := Queue.removeAt_spec hI.1 hI.2.2 ha
  rw [Queue.Remove_mem hp]
  rw [hak] at hnone
  exact ⟨hnone, Queue.Remove_absent hnone⟩

theorem c6_absent_noop_witness :
    ((Queue.empty.Insert ⟨"1", 10⟩ false).Remove "9" =
      Queue.empty.Insert ⟨"1", 10⟩ false) ∧
    (((Queue.empty.Insert ⟨"1", 10⟩ false).Remove "1").items "1" = none ∧
      ((Queue.empty.Insert ⟨"1", 10⟩ false).Remove "1").Remove "1" =
        (Queue.empty.Insert ⟨"1", 10⟩ false).Remove "1") :=
  ⟨(c6_absent_noop (Queue.empty.Insert ⟨"1", 10⟩ false) "9" ⟨"9", 5⟩ 0).1
      (by simp [Queue.Insert, Queue.pushItem, Queue.empty, mapSet, Queue.siftUp]),
   (c6_absent_noop (Queue.empty.Insert ⟨"1", 10⟩ false) "1" ⟨"9", 5⟩ 0).2.2
      (Reachable.insert _ _ Reachable.empty)
      (by simp [Queue.Insert, Queue.pushItem, Queue.empty, mapSet, Queue.siftUp])⟩

/-- C7: `Pop` and `Peek` on an empty queue report not-found without
mutating state (`Pop` returns the state unchanged, `Peek` returns no
state); on a non-empty queue `Peek` returns the root without mutating
anything and `Pop` returns the root while shrinking the queue by one and
deleting the root's key from both the heap and the index. -/
theorem c7_pop_peek (s : Queue) (r : QItem) :
    (s.heap = [] → s.Pop = (none, s) ∧ s.Peek = none) ∧
    (s.heap[0]? = some r →
      s.Peek = some r ∧ s.Pop.1 = some r ∧
      (Reachable s →
        s.Pop.2.Len = s.Len - 1 ∧ s.Pop.2.items r.key = none ∧
        ∀ x ∈ s.Pop.2.heap, x.key ≠ r.key)) := by
  constructor
  · intro h
    have h0 : s.heap[0]? = none := by rw [h]; rfl
    refine ⟨Queue.Pop_empty h0, ?_⟩
    unfold Queue.Peek
    exact h0
  · intro h0
    refine ⟨h0, ?_, ?_⟩
    · rw [Queue.Pop_mem h0]
    · intro hr
      have hI := reachable_inv hr
      obtain ⟨hlen, _, hidx2, hnone, _⟩ := Queue.removeAt_spec hI.1 hI.2.2 h0
      rw [Queue.Pop_mem h0]
      refine ⟨?_, hnone, ?_⟩
      · unfold Queue.Len
        exact hlen
      · intro x hx
        obtain ⟨i, hi⟩ := List.mem_iff_getElem?.1 hx
        have hxi := hidx2.1 i x hi
        intro hk
        rw [hk, hnone] at hxi
        cases hxi

theorem c7_pop_peek_witness :
    (Queue.empty.Pop = (none, Queue.empty) ∧ Queue.empty.Peek = none) ∧
    ((Queue.empty.Insert ⟨"1", 11⟩ false).Peek = some ⟨"1", 11⟩ ∧
      (Queue.empty.Insert ⟨"1", 11⟩ false).Pop.1 = some ⟨"1", 11⟩ ∧
      ((Queue.empty.Insert ⟨"1", 11⟩ false).Pop.2.Len =
          (Queue.empty.Insert ⟨"1", 11⟩ false).Len - 1 ∧
        (Queue.empty.Insert ⟨"1", 11⟩ false).Pop.2.items "1" = none ∧
        ∀ x ∈ (Queue.empty.Insert ⟨"1", 11⟩ false).Pop.2.heap, x.key ≠ "1")) :=
  ⟨(c7_pop_peek Queue.empty ⟨"0", 0⟩).1 rfl,
   by
    have h := (c7_pop_peek (Queue.empty.Insert ⟨"1", 11⟩ false) ⟨"1", 11⟩).2
      (by simp [Queue.Insert, Queue.pushItem, Queue.empty, mapSet, Queue.siftUp])
    exact ⟨h.1, h.2.1, h.2.2 (Reachable.insert _ _ Reachable.empty)⟩⟩

end KitQueue

namespace KitQueue

/-- C4: inserting an item whose key is already enqueued with
`replaceIfExists = true` overwrites the existing entry at its position
with the new payload and scheduled time, leaves `Len` unchanged, and
restores the heap-order and index invariants, so subsequent pops see the
new scheduled time. -/
theorem c4_insert_replace (s : Queue) (it : QItem) (p : Nat) (hr : Reachable s)
    (hp : s.items it.key = some p) :
    (s.Insert it true).Len = s.Len ∧
    heapOrdered (s.Insert it true).heap ∧
    idxInv (s.Insert it true) ∧
    (s.Insert it true).heap.Perm (s.heap.set p it) := by
  have hI := reachable_inv hr
  obtain ⟨h1, h2, h3, h4⟩ := Queue.replace_spec hI.1 hI.2.2 hp
  rw [Queue.Insert_replace hp]
  exact ⟨h4, h1, h2, h3⟩

theorem c4_insert_replace_witness :
    ((Queue.empty.Insert ⟨"1", 10⟩ false).Insert ⟨"1", 99⟩ true).Len =
      (Queue.empty.Insert ⟨"1", 10⟩ false).Len ∧
    heapOrdered ((Queue.empty.Insert ⟨"1", 10⟩ false).Insert ⟨"1", 99⟩ true).heap ∧
    idxInv ((Queue.empty.Insert ⟨"1", 10⟩ false).Insert ⟨"1", 99⟩ true) ∧
    ((Queue.empty.Insert ⟨"1", 10⟩ false).Insert ⟨"1", 99⟩ true).heap.Perm
      ((Queue.empty.Insert ⟨"1", 10⟩ false).heap.set 0 ⟨"1", 99⟩) :=
  c4_insert_replace (Queue.empty.Insert ⟨"1", 10⟩ false) ⟨"1", 99⟩ 0
    (Reachable.insert _ _ Reachable.empty)
    (by simp [Queue.Insert, Queue.pushItem, Queue.empty, mapSet, Queue.siftUp])

theorem sorted_max_getLast {l : List QItem} {it : QItem}
    (hs : List.Pairwise (fun u v : QItem => u.time ≤ v.time) l)
    (hmem : it ∈ l) (hmax : ∀ x ∈ l, x ≠ it → x.time < it.time) :
    l.getLast? = some it := by
  induction l with
  | nil => cases hmem
  | cons y l ih =>
      cases l with
      | nil =>
          simp only [List.mem_singleton] at hmem
          subst hmem
          rfl
      | cons z l2 =>
          by_cases hm : it ∈ z :: l2
          · rw [List.getLast?_cons_cons]
            exact ih (List.pairwise_cons.1 hs).2 hm
              (fun x hx hxne => hmax x (List.mem_cons_of_mem y hx) hxne)
          · have hy : it = y := by
              rcases List.mem_cons.1 hmem with h | h
              · exact h
              · exact absurd h hm
            have hz : z ≠ it := fun hh => hm (hh ▸ List.mem_cons_self z l2)
            have h1 := hmax z (List.mem_cons_of_mem y (List.mem_cons_self z l2)) hz
            have h2 := (List.pairwise_cons.1 hs).1 z (List.mem_cons_self z l2)
            rw [← hy] at h2
            omega

/-- C5: for a non-empty reachable queue containing key `it.key` at
position `p`, updating that item to a time strictly earlier than every
other enqueued item's makes it the `Peek` result and the next `Pop`
result; updating it to a time strictly later than every other item's
makes it the last item the drain (popping until empty) returns. -/
theorem c5_update_reorder (s : Queue) (it : QItem) (p : Nat) (hr : Reachable s)
    (hp : s.items it.key = some p) :
    ((∀ j x, s.heap[j]? = some x → j ≠ p → it.time < x.time) →
      (s.Update it).Peek = some it ∧ (s.Update it).Pop.1 = some it) ∧
    ((∀ j x, s.heap[j]? = some x → j ≠ p → x.time < it.time) →
      (drain (s.Update it)).getLast? = some it) := by
  have hI := reachable_inv hr
  obtain ⟨a, ha, hak⟩ := hI.2.2.2 it.key p hp
  have hplen : p < s.heap.length := (List.getElem?_eq_some.1 ha).1
  obtain ⟨hOrd2, hidx2, hperm2, hlen2⟩ := Queue.replace_spec hI.1 hI.2.2 hp
  rw [Queue.Update_mem hp]
  have hUinv : Inv (Queue.fixAt ⟨s.heap.set p it, s.items⟩ p) :=
    ⟨hOrd2, keysNodup_of_idxInv hidx2, hidx2⟩
  have hmem_it : it ∈ (Queue.fixAt ⟨s.heap.set p it, s.items⟩ p).heap := by
    apply hperm2.mem_iff.2
    exact List.mem_iff_getElem?.2 ⟨p, List.getElem?_set_self hplen⟩
  have hchar : ∀ x ∈ (Queue.fixAt ⟨s.heap.set p it, s.items⟩ p).heap,
      x = it ∨ ∃ j, s.heap[j]? = some x ∧ j ≠ p := by
    intro x hx
    have hx2 : x ∈ s.heap.set p it := hperm2.mem_iff.1 hx
    obtain ⟨j, hj⟩ := List.mem_iff_getElem?.1 hx2
    by_cases hjp : j = p
    · subst hjp
      rw [List.getElem?_set_self hplen] at hj
      exact Or.inl (Option.some.inj hj).symm
    · rw [List.getElem?_set_ne (by omega)] at hj
      exact Or.inr ⟨j, hj, hjp⟩
  constructor
  · intro hmin
    have hne0 : 0 < (Queue.fixAt ⟨s.heap.set p it, s.items⟩ p).heap.length := by
      rw [hlen2]
      omega
    have h0 := List.getElem?_eq_getElem hne0
    have hroot_mem : (Queue.fixAt ⟨s.heap.set p it, s.items⟩ p).heap[0] ∈
        (Queue.fixAt ⟨s.heap.set p it, s.items⟩ p).heap :=
      List.mem_iff_getElem?.2 ⟨0, h0⟩
    have hreq : (Queue.fixAt ⟨s.heap.set p it, s.items⟩ p).heap[0] = it := by
      rcases hchar _ hroot_mem with h | ⟨j, hj, hjp⟩
      · exact h
      · exfalso
        have hlt := hmin j _ hj hjp
        obtain ⟨q, hq⟩ := List.mem_iff_getElem?.1 hmem_it
        have hle := root_min hOrd2 q (List.getElem?_eq_some.1 hq).1
        rw [tAt_eq h0, tAt_eq hq] at hle
        omega
    constructor
    · unfold Queue.Peek
      rw [h0, hreq]
    · rw [Queue.Pop_mem h0]
      show some ((Queue.fixAt ⟨s.heap.set p it, s.items⟩ p).heap[0]) = some it
      rw [hreq]
  · intro hmax
    have hdperm := drainGo_perm (Queue.fixAt ⟨s.heap.set p it, s.items⟩ p).Len _ hUinv rfl
    have hdsort := drainGo_sorted (Queue.fixAt ⟨s.heap.set p it, s.items⟩ p).Len _ hUinv
    unfold drain
    apply sorted_max_getLast hdsort (hdperm.mem_iff.2 hmem_it)
    intro x hx hxne
    rcases hchar x (hdperm.mem_iff.1 hx) with h | ⟨j, hj, hjp⟩
    · exact absurd h hxne
    · exact hmax j x hj hjp

theorem c5_update_reorder_witness :
    (((Queue.empty.Insert ⟨"1", 10⟩ false).Update ⟨"1", 99⟩).Peek = some ⟨"1", 99⟩ ∧
      ((Queue.empty.Insert ⟨"1", 10⟩ false).Update ⟨"1", 99⟩).Pop.1 = some ⟨"1", 99⟩) ∧
    (drain ((Queue.empty.Insert ⟨"1", 10⟩ false).Update ⟨"1", 99⟩)).getLast? =
      some ⟨"1", 99⟩ := by
  have hvac : ∀ j (x : QItem), (Queue.empty.Insert ⟨"1", 10⟩ false).heap[j]? = some x →
      j ≠ 0 → False := by
    intro j x hj hjp
    cases j with
    | zero => exact absurd rfl hjp
    | succ n =>
        rw [show (Queue.empty.Insert ⟨"1", 10⟩ false).heap = [⟨"1", 10⟩] from by
          simp [Queue.Insert, Queue.pushItem, Queue.empty, mapSet, Queue.siftUp]] at hj
        simp at hj
  have h := c5_update_reorder (Queue.empty.Insert ⟨"1", 10⟩ false) ⟨"1", 99⟩ 0
    (Reachable.insert _ _ Reachable.empty)
    (by simp [Queue.Insert, Queue.pushItem, Queue.empty, mapSet, Queue.siftUp])
  exact ⟨h.1 (fun j x hj hjp => (hvac j x hj hjp).elim),
    h.2 (fun j x hj hjp => (hvac j x hj hjp).elim)⟩

end KitQueue
